import Mathlib

/-!
# Verification of `style.c` (Delwink C coding conventions demo)

A shallow embedding of the Fibonacci printer of `src/style.c`:

* `fib_state_machine`, `fib_init`, `fib_advance` : the sequence generator,
  with `unsigned int` arithmetic made explicit as `% 2 ^ 32`;
* `print_sequence` : the bounded printer, its two loops driven by fuel;
* `str_to_index` : bounds-checked argument conversion;
* `main` : the option loop over the results of `getopt`.

The C library (`sscanf`, `fopen`, `getopt`) is not part of the program: the
first two are fields of an environment `Env`, the third is modelled after its
POSIX description.
-/

namespace Style

/-! ## Machine integers -/

/-- Number of values of a 32 bit `unsigned int`. -/
def UINT_MOD : Nat := 2 ^ 32

/-- Largest `unsigned int`. -/
def UINT_MAX : Nat := 2 ^ 32 - 1

/-- A `FILE *` value: one of the standard streams, or the stream returned by
the `fd`-th successful `fopen` of the run. -/
inductive FILE where
  | stdout : FILE
  | stderr : FILE
  | file (fd : Nat) (path : String) : FILE
  deriving DecidableEq, Repr

/-- One call `fprintf(dest, fmt, arg)`: the stream, the text produced, and the
`unsigned int` argument that was formatted. -/
structure Write where
  dest : FILE
  text : String
  arg : Nat
  deriving DecidableEq, Repr

/-! ## The sequence generator -/

/-- Data structure to hold the state of a Fibonacci sequence
(`struct fib_state_machine`). -/
structure fib_state_machine where
  value : Nat
  next_value : Nat
  index : Nat
  deriving DecidableEq, Repr

/-- Initializes a Fibonacci state machine (`fib_init`, lines 61-72). -/
def fib_init : fib_state_machine :=
  { value := 0, next_value := 1, index := 0 }

/-- Advances a Fibonacci sequence to its next value (`fib_advance`, lines
78-86); `temp` and `++self->index` are `unsigned int` computations. -/
def fib_advance (self : fib_state_machine) : fib_state_machine :=
  let temp := (self.value + self.next_value) % UINT_MOD
  { value := self.next_value, next_value := temp, index := (self.index + 1) % UINT_MOD }

/-! ## The bounded printer -/

/-- What a run of `print_sequence` did: the `fprintf` calls in order, and the
argument state of every call of `fib_advance` in order. -/
structure Trace where
  out : List Write
  calls : List fib_state_machine
  deriving DecidableEq, Repr

/-- The local variable `fib` of `print_sequence` together with the trace so
far. -/
structure Machine where
  fib : fib_state_machine
  trace : Trace
  deriving DecidableEq, Repr

/-- Running `fib_advance(&fib)` inside `print_sequence`. -/
def Machine.advance (m : Machine) : Machine :=
  { fib := fib_advance m.fib,
    trace := { out := m.trace.out, calls := m.trace.calls ++ [m.fib] } }

/-- Running `fprintf(dest, fmt, fib.value)` inside `print_sequence`; `fmt` is
the function a format string with one `%u` denotes. -/
def Machine.fprintf (dest : FILE) (fmt : Nat → String) (m : Machine) : Machine :=
  { fib := m.fib,
    trace := { out := m.trace.out ++ [{ dest := dest, text := fmt m.fib.value, arg := m.fib.value }],
               calls := m.trace.calls } }

/-- The format `"%u\n"`. -/
def default_fmt (v : Nat) : String := toString v ++ "\n"

/-- The loop `while (fib.index < start) fib_advance(&fib);` (lines 124-125).
Every evaluation of the loop test uses one unit of fuel; `none` means the fuel
ran out before the loop ended. -/
def seek_loop : Nat → Nat → Machine → Option Machine
  | 0, _, _ => none
  | fuel + 1, start, m =>
    if m.fib.index < start then seek_loop fuel start m.advance else some m

/-- The loop `do { fprintf(dest, fmt, fib.value); fib_advance(&fib); }
while (fib.index < end);` (lines 127-131). Every run of the body uses one unit
of fuel. -/
def emit_loop : Nat → Nat → (Nat → String) → FILE → Machine → Option Machine
  | 0, _, _, _, _ => none
  | fuel + 1, end_, fmt, dest, m =>
    let m1 := (m.fprintf dest fmt).advance
    if m1.fib.index < end_ then emit_loop fuel end_ fmt dest m1 else some m1

/-- Prints a Fibonacci sequence (`print_sequence`, lines 95-132). `fmt` and
`dest` are `none` for a `NULL` pointer. The result is `none` when a loop does
not finish within `fuel`. -/
def print_sequence (fuel : Nat) (start end_ : Nat) (fmt : Option (Nat → String))
    (dest : Option FILE) : Option Trace :=
  if end_ ≤ start then
    some { out := [], calls := [] }
  else
    let fmt := fmt.getD default_fmt
    let dest := dest.getD FILE.stdout
    let fib := fib_init
    match seek_loop fuel start { fib := fib, trace := { out := [], calls := [] } } with
    | none => none
    | some m =>
      match emit_loop fuel end_ fmt dest m with
      | none => none
      | some m2 => some m2.trace

/-! ## The C library -/

/-- The parts of the C library and of the file system the program depends on.
`sscanf_d src` is `some v` when `sscanf(src, "%d", &temp)` returns 1 and stores
`v`, and `none` when it returns anything else; `fopen_ok path` tells whether
`fopen(path, "w")` succeeds, and `strerror_errno path` is the text of
`strerror(errno)` after it failed. -/
structure Env where
  sscanf_d : String → Option Int
  fopen_ok : String → Bool
  strerror_errno : String → String

/-- What one call of `getopt` hands to the program: its return value `c` and
the globals `optarg` (meaningful after an option with an argument) and
`optopt` (meaningful after `':'` and `'?'`). -/
structure GetoptRet where
  c : Char
  optarg : String
  optopt : Char
  deriving DecidableEq, Repr

/-- Looks `c` up in an option string: `none` when it is not an option
character, otherwise whether it is followed by a colon. -/
def optstring_lookup : List Char → Char → Option Bool
  | [], _ => none
  | x :: rest, c =>
    if x = c ∧ c ≠ ':' then some (decide (rest.head? = some ':'))
    else optstring_lookup rest c

/-- POSIX `getopt` on the option characters of one element of `argv` (the
text after its leading `-`), for an option string that starts with a colon.
`next` is the following element of `argv`, if any. Returns the results of the
successive calls and whether `next` was taken as an option argument. -/
def getopt_chars (optstring : List Char) (next : Option String) :
    List Char → List GetoptRet × Bool
  | [] => ([], false)
  | c :: cs =>
    match optstring_lookup optstring c with
    | none =>
      let r := getopt_chars optstring next cs
      ({ c := '?', optarg := "", optopt := c } :: r.1, r.2)
    | some false =>
      let r := getopt_chars optstring next cs
      ({ c := c, optarg := "", optopt := '?' } :: r.1, r.2)
    | some true =>
      match cs, next with
      | [], none => ([{ c := ':', optarg := "", optopt := c }], false)
      | [], some a => ([{ c := c, optarg := a, optopt := '?' }], true)
      | _ :: _, _ => ([{ c := c, optarg := String.mk cs, optopt := '?' }], false)

/-- The values returned by the successive calls of POSIX `getopt` (no
permutation of `argv`) until it returns -1, on the elements of `argv` after
`argv[0]`. The flag says that the first element was already used as an option
argument. Scanning stops at the first element that is not an option, and at
`--`. -/
def getopt_all (optstring : List Char) : Bool → List String → List GetoptRet
  | _, [] => []
  | true, _ :: rest => getopt_all optstring false rest
  | false, a :: rest =>
    match a.data with
    | '-' :: c :: cs =>
      if c = '-' ∧ cs = [] then []
      else
        let r := getopt_chars optstring rest.head? (c :: cs)
        r.1 ++ getopt_all optstring r.2 rest
    | _ => []

/-! ## The process -/

/-- An observable action of the process. `print_sequence` marks the call of
the printer from `main`. -/
inductive Event where
  | fopen (path : String) (result : Option FILE) : Event
  | fprintf (dest : FILE) (text : String) : Event
  | print_sequence (start end_ : Nat) : Event
  | fclose (stream : FILE) : Event
  deriving DecidableEq, Repr

/-- Termination of the process: the exit code, and the actions performed. -/
structure Exit where
  code : Int
  log : List Event
  deriving DecidableEq, Repr

def PROGNAME : String := "c-style"

def VERSION : String := "20170512"

def USAGE : String :=
  PROGNAME ++ " v" ++ VERSION ++ "\n" ++
  "Prints Fibonacci sequences\n" ++
  "USAGE: " ++ PROGNAME ++ " [-h] [-v] [-s START] [-e END] [-o FILE]\n" ++
  "\n" ++
  "OPTIONS:\n" ++
  "\t-h:\tShows this help and exits.\n" ++
  "\n" ++
  "\t-v:\tShows version info and exits.\n" ++
  "\n" ++
  "\t-s START:\tStarts sequence at START.\n" ++
  "\n" ++
  "\t-e END:\tEnds sequence at END.\n" ++
  "\n" ++
  "\t-o FILE:\tSaves output in FILE.\n"

/-- Prints usage info and exits (`usage`, lines 138-143): it never returns. -/
def usage (rc : Int) : Exit :=
  { code := rc, log := [Event.fprintf FILE.stderr USAGE] }

/-- The conversion `(unsigned int) temp`. -/
def to_unsigned (temp : Int) : Nat := (temp % (UINT_MOD : Int)).toNat

/-- Converts a string to an index or fails (`str_to_index`, lines 153-175).
`Except.error x` is the process terminated by `exit`, `Except.ok v` is the
value returned. -/
def str_to_index (env : Env) (src : String) (lower upper : Int) (arg : Char) :
    Except Exit Nat :=
  match env.sscanf_d src with
  | none =>
    Except.error
      { code := 1,
        log := [Event.fprintf FILE.stderr
          ("Argument to -" ++ arg.toString ++ " must be a number\n")] }
  | some temp =>
    if temp < lower ∨ temp > upper then
      Except.error
        { code := 1,
          log := [Event.fprintf FILE.stderr
            (PROGNAME ++ ": argument to -" ++ arg.toString ++ " must be between "
              ++ toString lower ++ " and " ++ toString upper ++ "\n")] }
    else
      Except.ok (to_unsigned temp)

/-- The local variables of `main`, with the actions performed so far and the
number of streams opened so far. -/
structure Locals where
  outfile : FILE
  start : Nat
  end_ : Nat
  log : List Event
  opened : Nat
  deriving DecidableEq, Repr

/-- The `switch (c)` of `main` (lines 187-222) for one result of `getopt`.
`Except.error x` is the process terminated inside the switch (by `exit` or by
`return`), `Except.ok st` is the loop going on. -/
def main_switch (env : Env) (st : Locals) (g : GetoptRet) : Except Exit Locals :=
  if g.c = 'e' then
    match str_to_index env g.optarg 0 48 g.c with
    | Except.error x => Except.error { code := x.code, log := st.log ++ x.log }
    | Except.ok v => Except.ok { st with end_ := v }
  else if g.c = 'h' then
    Except.error { code := (usage 0).code, log := st.log ++ (usage 0).log }
  else if g.c = 'o' then
    if env.fopen_ok g.optarg then
      let f := FILE.file st.opened g.optarg
      Except.ok { st with outfile := f,
                          log := st.log ++ [Event.fopen g.optarg (some f)],
                          opened := st.opened + 1 }
    else
      Except.error
        { code := 1,
          log := st.log ++ [Event.fopen g.optarg none,
            Event.fprintf FILE.stderr
              (PROGNAME ++ ": could not open " ++ g.optarg ++ ": "
                ++ env.strerror_errno g.optarg ++ "\n")] }
  else if g.c = 's' then
    match str_to_index env g.optarg 0 48 g.c with
    | Except.error x => Except.error { code := x.code, log := st.log ++ x.log }
    | Except.ok v => Except.ok { st with start := v }
  else if g.c = 'v' then
    Except.error
      { code := 0,
        log := st.log ++ [Event.fprintf FILE.stderr (PROGNAME ++ " v" ++ VERSION ++ "\n")] }
  else if g.c = ':' then
    Except.error
      { code := (usage 1).code,
        log := st.log ++ [Event.fprintf FILE.stderr
          (PROGNAME ++ ": option " ++ g.optopt.toString ++ " requires an argument\n")]
          ++ (usage 1).log }
  else if g.c = '?' then
    Except.error { code := (usage 1).code, log := st.log ++ (usage 1).log }
  else
    Except.ok st

/-- The loop `while ((c = getopt(argc, argv, ":e:ho:s:v")) != -1)` of `main`
(lines 185-223), over the results of the successive calls of `getopt`. -/
def main_loop (env : Env) : List GetoptRet → Locals → Except Exit Locals
  | [], st => Except.ok st
  | g :: rest, st =>
    match main_switch env st g with
    | Except.error x => Except.error x
    | Except.ok st1 => main_loop env rest st1

/-- The rest of `main` once `getopt` has returned -1 (lines 225-230). -/
def main_finish (st : Locals) : Option Exit :=
  match print_sequence UINT_MAX st.start st.end_ none (some st.outfile) with
  | none => none
  | some t =>
    let printed := t.out.map (fun w => Event.fprintf w.dest w.text)
    let closed := if st.outfile ≠ FILE.stdout then [Event.fclose st.outfile] else []
    some { code := 0,
           log := st.log ++ [Event.print_sequence st.start st.end_] ++ printed ++ closed }

/-- The option string of `main`. -/
def OPTSTRING : List Char := ":e:ho:s:v".data

/-- The values of the locals of `main` at their declaration (lines 180-182). -/
def main_init : Locals :=
  { outfile := FILE.stdout, start := 0, end_ := 10, log := [], opened := 0 }

/-- The program (`main`, lines 177-231) on the argument vector `argv`
(`argv[0]` included). `none` means that `print_sequence` did not finish within
its fuel. -/
def main (env : Env) (argv : List String) : Option Exit :=
  match main_loop env (getopt_all OPTSTRING false argv.tail) main_init with
  | Except.error x => some x
  | Except.ok st => main_finish st

/-! ## A concrete C library -/

/-- The character class `isspace` of the C locale. -/
def isspace (c : Char) : Bool :=
  c = ' ' ∨ c = '\t' ∨ c = '\n' ∨ c = '\x0b' ∨ c = '\x0c' ∨ c = '\r'

/-- Reduction of an integer to the range of `int` (two's complement, 32 bits). -/
def wrap_int (v : Int) : Int := (v + 2 ^ 31) % 2 ^ 32 - 2 ^ 31

/-- A model of `sscanf(src, "%d", &temp)`: white space is skipped, then an
optional sign and a non-empty run of decimal digits are read; what follows is
left unread. A value outside the range of `int`, for which C leaves the result
open, is reduced to 32 bits. -/
def sscanf_d (src : String) : Option Int :=
  let s := src.data.dropWhile isspace
  let signed : Bool × List Char :=
    match s with
    | '-' :: t => (true, t)
    | '+' :: t => (false, t)
    | _ => (false, s)
  let ds := signed.2.takeWhile Char.isDigit
  if ds = [] then none
  else
    let n : Nat := ds.foldl (fun acc d => 10 * acc + (d.toNat - 48)) 0
    some (wrap_int (if signed.1 then -(n : Int) else (n : Int)))

/-- An environment for examples: `sscanf` as modelled above, and every file
can be opened but those under `/nonexistent/`. -/
def demo_env : Env :=
  { sscanf_d := sscanf_d,
    fopen_ok := fun path => !(("/nonexistent/".data).isPrefixOf path.data),
    strerror_errno := fun _ => "No such file or directory" }

/-! ## Specification vocabulary -/

/-- The generator state the mathematical Fibonacci numbers predict at index
`n`, reduced to 32 bits. -/
def fib_at (n : Nat) : fib_state_machine :=
  { value := Nat.fib n % UINT_MOD, next_value := Nat.fib (n + 1) % UINT_MOD,
    index := n % UINT_MOD }

/-- The `fprintf` call that prints the `j`-th Fibonacci number, reduced to 32
bits. -/
def fib_write (fmt : Nat → String) (dest : FILE) (j : Nat) : Write :=
  { dest := dest, text := fmt (Nat.fib j % UINT_MOD), arg := Nat.fib j % UINT_MOD }

/-- A line that holds one unsigned integer: a non-empty run of decimal digits
followed by a newline. -/
def is_uint_line (s : String) : Prop :=
  ∃ ds : List Char, s.data = ds ++ ['\n'] ∧ ds ≠ [] ∧ ∀ c ∈ ds, c.isDigit = true

/-- The actions that can precede the call of the printer: opening a file, and
writing to the error stream. -/
def Event.is_quiet : Event → Bool
  | Event.fopen _ _ => true
  | Event.fprintf d _ => decide (d = FILE.stderr)
  | Event.print_sequence _ _ => false
  | Event.fclose _ => false

/-- The stream returned by the last successful `fopen` of a log, if any. -/
def last_opened (log : List Event) : Option FILE :=
  log.foldl
    (fun acc ev =>
      match ev with
      | Event.fopen _ (some f) => some f
      | _ => acc)
    none

/-- What holds of the locals of `main` all along the option loop. -/
def Locals.ok (st : Locals) : Prop :=
  (∀ ev ∈ st.log, ev.is_quiet = true) ∧
  st.outfile = (last_opened st.log).getD FILE.stdout ∧
  last_opened st.log ≠ some FILE.stdout ∧
  st.start ≤ 48 ∧ st.end_ ≤ 48

/-! ## Lemmas on the generator and the loops -/

theorem fib_advance_fib_at (n : Nat) : fib_advance (fib_at n) = fib_at (n + 1) := by
  simp only [fib_advance, fib_at, UINT_MOD, Nat.fib_add_two]
  simp [Nat.add_mod]

theorem iterate_fib_advance (n : Nat) : fib_advance^[n] fib_init = fib_at n := by
  induction n with
  | zero => simp [fib_init, fib_at, UINT_MOD]
  | succ k ih => rw [Function.iterate_succ_apply', ih, fib_advance_fib_at]

theorem fib_at_index {n : Nat} (h : n < UINT_MOD) : (fib_at n).index = n := by
  simp [fib_at, Nat.mod_eq_of_lt h]

theorem seek_loop_spec (start : Nat) (hs : start < UINT_MOD) :
    ∀ (k i fuel : Nat) (tr : Trace), i + k = start → k < fuel →
      seek_loop fuel start { fib := fib_at i, trace := tr } =
        some { fib := fib_at start,
               trace := { out := tr.out,
                          calls := tr.calls ++ (List.range' i k).map fib_at } } := by
  intro k
  induction k with
  | zero =>
    intro i fuel tr hi hf
    obtain ⟨f, rfl⟩ := Nat.exists_eq_succ_of_ne_zero (Nat.pos_iff_ne_zero.mp hf)
    have : i = start := by omega
    subst this
    simp [seek_loop, fib_at_index hs]
  | succ k ih =>
    intro i fuel tr hi hf
    obtain ⟨f, rfl⟩ := Nat.exists_eq_succ_of_ne_zero (Nat.pos_iff_ne_zero.mp (by omega : 0 < fuel))
    have hi1 : i < UINT_MOD := by omega
    have hlt : (fib_at i).index < start := by rw [fib_at_index hi1]; omega
    rw [seek_loop, if_pos hlt]
    simp only [Machine.advance, fib_advance_fib_at]
    rw [ih (i + 1) f _ (by omega) (by omega)]
    simp [List.range'_succ]

theorem emit_loop_spec (end_ : Nat) (he : end_ < UINT_MOD) (fmt : Nat → String) (dest : FILE) :
    ∀ (k i fuel : Nat) (tr : Trace), i + k + 1 = end_ → k < fuel →
      emit_loop fuel end_ fmt dest { fib := fib_at i, trace := tr } =
        some { fib := fib_at end_,
               trace := { out := tr.out ++ (List.range' i (k + 1)).map (fib_write fmt dest),
                          calls := tr.calls ++ (List.range' i (k + 1)).map fib_at } } := by
  intro k
  induction k with
  | zero =>
    intro i fuel tr hi hf
    obtain ⟨f, rfl⟩ := Nat.exists_eq_succ_of_ne_zero (Nat.pos_iff_ne_zero.mp hf)
    have : end_ = i + 1 := by omega
    subst this
    have hge : ¬ (fib_at (i + 1)).index < i + 1 := by rw [fib_at_index he]; omega
    simp only [emit_loop, Machine.advance, Machine.fprintf, fib_advance_fib_at, if_neg hge]
    simp [fib_write, fib_at]
  | succ k ih =>
    intro i fuel tr hi hf
    obtain ⟨f, rfl⟩ := Nat.exists_eq_succ_of_ne_zero (Nat.pos_iff_ne_zero.mp (by omega : 0 < fuel))
    have hi1 : i + 1 < UINT_MOD := by omega
    have hlt : (fib_at (i + 1)).index < end_ := by rw [fib_at_index hi1]; omega
    simp only [emit_loop, Machine.advance, Machine.fprintf, fib_advance_fib_at, if_pos hlt]
    rw [ih (i + 1) f _ (by omega) (by omega)]
    simp [List.range'_succ (s := i) (n := k + 1), fib_write, fib_at]

/-- Closed form of a run of `print_sequence` that passes the guard. -/
theorem print_sequence_eq (fuel start end_ : Nat) (fmt : Option (Nat → String))
    (dest : Option FILE) (h : start < end_) (he : end_ < UINT_MOD) (hf : end_ ≤ fuel) :
    print_sequence fuel start end_ fmt dest =
      some { out := (List.range' start (end_ - start)).map
                      (fib_write (fmt.getD default_fmt) (dest.getD FILE.stdout)),
             calls := (List.range' 0 end_).map fib_at } := by
  have h0 : fib_init = fib_at 0 := by simp [fib_init, fib_at, UINT_MOD]
  have hk : end_ - start = (end_ - start - 1) + 1 := by omega
  rw [print_sequence, if_neg (by omega)]
  simp only [h0]
  rw [seek_loop_spec start (by omega) start 0 fuel _ (by omega) (by omega)]
  simp only
  rw [emit_loop_spec end_ he _ _ (end_ - start - 1) start fuel _ (by omega) (by omega), ← hk]
  simp only [List.nil_append, Option.some.injEq, Trace.mk.injEq, true_and]
  rw [← List.map_append]
  congr 1
  have := List.range'_append 0 start (end_ - start) 1
  simp only [Nat.one_mul, Nat.zero_add] at this
  rw [this]
  congr 1
  omega

/-- The Fibonacci numbers up to index 47 fit in 32 bits. -/
theorem fib_lt_of_le_47 {n : Nat} (h : n ≤ 47) : Nat.fib n < UINT_MOD :=
  lt_of_le_of_lt (Nat.fib_mono h) (by norm_num [UINT_MOD])

/-! ## Lemmas on decimal output -/

theorem digitChar_isDigit {d : Nat} (h : d < 10) : (Nat.digitChar d).isDigit = true := by
  interval_cases d <;> decide

theorem toDigitsCore_isDigit : ∀ (f n : Nat) (acc : List Char),
    (∀ c ∈ acc, c.isDigit = true) → ∀ c ∈ Nat.toDigitsCore 10 f n acc, c.isDigit = true := by
  intro f
  induction f with
  | zero => intro n acc h; simpa [Nat.toDigitsCore] using h
  | succ f ih =>
    intro n acc h
    have hd : (Nat.digitChar (n % 10)).isDigit = true := digitChar_isDigit (Nat.mod_lt _ (by decide))
    have hacc : ∀ c ∈ Nat.digitChar (n % 10) :: acc, c.isDigit = true := by
      intro c hc
      rcases List.mem_cons.mp hc with rfl | hc
      · exact hd
      · exact h c hc
    simp only [Nat.toDigitsCore]
    split
    · exact hacc
    · exact ih _ _ hacc

theorem toDigitsCore_ne_nil : ∀ (f n : Nat) (acc : List Char),
    (acc ≠ [] ∨ 0 < f) → Nat.toDigitsCore 10 f n acc ≠ [] := by
  intro f
  induction f with
  | zero => intro n acc h; rcases h with h | h <;> simp_all [Nat.toDigitsCore]
  | succ f ih =>
    intro n acc _
    simp only [Nat.toDigitsCore]
    split
    · simp
    · exact ih _ _ (Or.inl (by simp))

theorem default_fmt_is_uint_line (v : Nat) : is_uint_line (default_fmt v) := by
  refine ⟨Nat.toDigits 10 v, ?_, ?_, ?_⟩
  · show (Nat.repr v ++ "\n").data = _
    simp [Nat.repr, List.asString]
  · exact toDigitsCore_ne_nil _ _ _ (Or.inr (Nat.succ_pos _))
  · exact toDigitsCore_isDigit _ _ _ (by simp)

/-! ## The generator -/

/-- C8: after `fib_init` and `n < 2^32` calls of `fib_advance` the state has
index `n`, value `F(n) mod 2^32` and next value `F(n+1) mod 2^32`; `fib_init`
yields `(0, 1, 0)` and `fib_advance` maps `(v, x, i)` to
`(x, (v + x) mod 2^32, i + 1)` as long as the index is below `2^32 - 1`. -/
theorem fib_state_after_advances (n : Nat) (h : n < 2 ^ 32) :
    fib_init = { value := 0, next_value := 1, index := 0 } ∧
    (∀ v x i : Nat, i + 1 < 2 ^ 32 →
      fib_advance { value := v, next_value := x, index := i } =
        { value := x, next_value := (v + x) % 2 ^ 32, index := i + 1 }) ∧
    (fib_advance^[n] fib_init).index = n ∧
    (fib_advance^[n] fib_init).value = Nat.fib n % 2 ^ 32 ∧
    (fib_advance^[n] fib_init).next_value = Nat.fib (n + 1) % 2 ^ 32 := by
  refine ⟨rfl, ?_, ?_, ?_, ?_⟩
  · intro v x i hi
    simp only [fib_advance, UINT_MOD, Nat.mod_eq_of_lt hi]
  · rw [iterate_fib_advance]; exact fib_at_index h
  · rw [iterate_fib_advance]; rfl
  · rw [iterate_fib_advance]; rfl

theorem fib_state_after_advances_witness :
    (fib_advance^[10] fib_init).index = 10 ∧
    (fib_advance^[10] fib_init).value = Nat.fib 10 % 2 ^ 32 :=
  ⟨(fib_state_after_advances 10 (by norm_num)).2.2.1,
   (fib_state_after_advances 10 (by norm_num)).2.2.2.1⟩

/-! ## The printer -/

/-- C1: for `start < end <= 48` the values `print_sequence(start, end)` passes
to `fprintf` are, in order, the Fibonacci numbers `F(start), ..., F(end-1)`
themselves (no wraparound), with any format, any destination and any fuel of
at least `end`; and `start = 0`, `end = 10` prints 0,1,1,2,3,5,8,13,21,34. -/
theorem print_sequence_emits_fibonacci (fuel start end_ : Nat)
    (fmt : Option (Nat → String)) (dest : Option FILE)
    (h1 : start < end_) (h2 : end_ ≤ 48) (hf : end_ ≤ fuel) :
    (print_sequence fuel start end_ fmt dest).map (fun t => t.out.map Write.arg) =
      some ((List.range' start (end_ - start)).map Nat.fib) ∧
    (print_sequence UINT_MAX 0 10 none none).map (fun t => t.out.map Write.arg) =
      some [0, 1, 1, 2, 3, 5, 8, 13, 21, 34] ∧
    (print_sequence UINT_MAX 0 10 none none).map (fun t => t.out.map Write.text) =
      some ["0\n", "1\n", "1\n", "2\n", "3\n", "5\n", "8\n", "13\n", "21\n", "34\n"] := by
  refine ⟨?_, by decide, by decide⟩
  rw [print_sequence_eq fuel start end_ fmt dest h1 (by simp only [UINT_MOD]; omega) hf]
  simp only [Option.map_some', List.map_map, Option.some.injEq]
  apply List.map_congr_left
  intro j hj
  have hj2 : j < end_ := by
    have := (List.mem_range'_1.mp hj).2
    omega
  exact Nat.mod_eq_of_lt (fib_lt_of_le_47 (by omega))

theorem print_sequence_emits_fibonacci_witness :
    (print_sequence 48 40 48 none none).map (fun t => t.out.map Write.arg) =
      some ((List.range' 40 (48 - 40)).map Nat.fib) :=
  (print_sequence_emits_fibonacci 48 40 48 none none (by decide) (by decide) (by decide)).1

/-- C2: for `start < end <= 48`, `print_sequence(start, end)` with the default
format performs exactly `end - start` writes (so at least one), each to the
requested destination and each a line holding one unsigned 32 bit integer in
decimal. -/
theorem print_sequence_line_count (fuel start end_ : Nat) (dest : Option FILE)
    (h1 : start < end_) (h2 : end_ ≤ 48) (hf : end_ ≤ fuel) :
    ∃ t, print_sequence fuel start end_ none dest = some t ∧
      t.out.length = end_ - start ∧ 0 < t.out.length ∧
      ∀ w ∈ t.out, w.dest = dest.getD FILE.stdout ∧ w.arg < 2 ^ 32 ∧
        w.text = toString w.arg ++ "\n" ∧ is_uint_line w.text := by
  refine ⟨_, print_sequence_eq fuel start end_ none dest h1 (by simp only [UINT_MOD]; omega) hf,
    by simp, by simp; omega, ?_⟩
  intro w hw
  obtain ⟨j, _, rfl⟩ := List.mem_map.mp hw
  refine ⟨rfl, ?_, rfl, ?_⟩
  · exact Nat.mod_lt _ (by norm_num [UINT_MOD])
  · exact default_fmt_is_uint_line _

theorem print_sequence_line_count_witness :
    ∃ t, print_sequence 10 0 10 none none = some t ∧
      t.out.length = 10 - 0 ∧ 0 < t.out.length ∧
      ∀ w ∈ t.out, w.dest = (none : Option FILE).getD FILE.stdout ∧ w.arg < 2 ^ 32 ∧
        w.text = toString w.arg ++ "\n" ∧ is_uint_line w.text :=
  print_sequence_line_count 10 0 10 none (by decide) (by decide) (by decide)

/-- C3: when `end <= start`, `print_sequence(start, end)` returns at the guard
whatever the fuel (even none): nothing is written and `fib_advance` is never
called; this covers `start = end = 0` and `start = end = 48`, and the program
run with `-s 48 -e 48` exits with code 0 having written nothing. -/
theorem print_sequence_noop (fuel start end_ : Nat) (fmt : Option (Nat → String))
    (dest : Option FILE) (h : end_ ≤ start) :
    print_sequence fuel start end_ fmt dest = some { out := [], calls := [] } ∧
    print_sequence 0 0 0 fmt dest = some { out := [], calls := [] } ∧
    print_sequence 0 48 48 fmt dest = some { out := [], calls := [] } ∧
    main demo_env ["c-style", "-s", "48", "-e", "48"] =
      some { code := 0, log := [Event.print_sequence 48 48] } := by
  refine ⟨?_, ?_, ?_, by decide⟩
  · simp [print_sequence, h]
  · simp [print_sequence]
  · simp [print_sequence]

theorem print_sequence_noop_witness :
    print_sequence 0 7 3 none none = some { out := [], calls := [] } :=
  (print_sequence_noop 0 7 3 none none (by decide)).1

/-- C7, as stated, fails: in `print_sequence(0, 47)`, well inside the range
[0,48], `fib_advance` is called on the state `(F(46), F(47), 46)` and adds
1836311903 + 2971215073 = 4807526976, which exceeds `2^32 - 1`. -/
theorem fib_advance_sum_overflows :
    (0 < 47 ∧ 47 ≤ 48) ∧
    ∃ t, print_sequence UINT_MAX 0 47 none none = some t ∧
      ({ value := 1836311903, next_value := 2971215073, index := 46 } : fib_state_machine)
        ∈ t.calls ∧
      2 ^ 32 - 1 < 1836311903 + 2971215073 := by
  refine ⟨by decide, _, print_sequence_eq UINT_MAX 0 47 none none (by decide)
    (by norm_num [UINT_MOD]) (by norm_num [UINT_MAX]), ?_, by norm_num⟩
  refine List.mem_map.mpr ⟨46, by simp [List.mem_range'_1], ?_⟩
  norm_num [fib_at, UINT_MOD]

/-- C7, amended: for `start < end <= 48`, every addition `value + next_value`
that `fib_advance` performs at an index of at most 45 during
`print_sequence(start, end)` is at most `2^32 - 1`; all the additions of the
run are so exactly when `end <= 46` (otherwise the one at index 46 computes
`F(48)`); and the values printed are the Fibonacci numbers in any case. -/
theorem fib_advance_sums_bounded (fuel start end_ : Nat)
    (fmt : Option (Nat → String)) (dest : Option FILE)
    (h1 : start < end_) (h2 : end_ ≤ 48) (hf : end_ ≤ fuel) :
    ∃ t, print_sequence fuel start end_ fmt dest = some t ∧
      (∀ s ∈ t.calls, s.index ≤ 45 → s.value + s.next_value ≤ 2 ^ 32 - 1) ∧
      ((∀ s ∈ t.calls, s.value + s.next_value ≤ 2 ^ 32 - 1) ↔ end_ ≤ 46) ∧
      t.out.map Write.arg = (List.range' start (end_ - start)).map Nat.fib := by
  have hsum : ∀ i : Nat, i ≤ 45 →
      (fib_at i).value + (fib_at i).next_value ≤ 2 ^ 32 - 1 := by
    intro i hi
    have h47 : Nat.fib (i + 2) < UINT_MOD := fib_lt_of_le_47 (by omega)
    have ha : Nat.fib i < UINT_MOD := fib_lt_of_le_47 (by omega)
    have hb : Nat.fib (i + 1) < UINT_MOD := fib_lt_of_le_47 (by omega)
    simp only [fib_at, Nat.mod_eq_of_lt ha, Nat.mod_eq_of_lt hb]
    rw [Nat.fib_add_two] at h47
    simp only [UINT_MOD] at h47
    omega
  refine ⟨_, print_sequence_eq fuel start end_ fmt dest h1 (by simp only [UINT_MOD]; omega) hf,
    ?_, ?_, ?_⟩
  · intro s hs hidx
    obtain ⟨i, hi, rfl⟩ := List.mem_map.mp hs
    have hi2 : i < end_ := by simpa [List.mem_range'_1] using hi
    rw [fib_at_index (by simp only [UINT_MOD]; omega)] at hidx
    exact hsum i hidx
  · constructor
    · intro hall
      by_contra hgt
      have hmem : fib_at 46 ∈ (List.range' 0 end_).map fib_at :=
        List.mem_map.mpr ⟨46, by simp [List.mem_range'_1]; omega, rfl⟩
      have := hall _ hmem
      norm_num [fib_at, UINT_MOD] at this
    · intro hle s hs
      obtain ⟨i, hi, rfl⟩ := List.mem_map.mp hs
      have hi2 : i < end_ := by simpa [List.mem_range'_1] using hi
      exact hsum i (by omega)
  · simp only [List.map_map]
    apply List.map_congr_left
    intro j hj
    have hj2 : j < end_ := by
      have := (List.mem_range'_1.mp hj).2
      omega
    exact Nat.mod_eq_of_lt (fib_lt_of_le_47 (by omega))

theorem fib_advance_sums_bounded_witness :
    ∃ t, print_sequence 48 0 48 none none = some t ∧
      (∀ s ∈ t.calls, s.index ≤ 45 → s.value + s.next_value ≤ 2 ^ 32 - 1) ∧
      ((∀ s ∈ t.calls, s.value + s.next_value ≤ 2 ^ 32 - 1) ↔ 48 ≤ 46) ∧
      t.out.map Write.arg = (List.range' 0 (48 - 0)).map Nat.fib :=
  fib_advance_sums_bounded 48 0 48 none none (by decide) (by decide) (by decide)

/-- C9: for all 32 bit `start` and `end` (up to `end = 2^32 - 1`),
`print_sequence(start, end)` returns within any fuel of at least `end`, in
particular within `UINT_MAX`; no call of `fib_advance` wraps the index; and,
when the guard is passed, the seek loop stops with index `start` and the emit
loop with index `end`. -/
theorem print_sequence_terminates (fuel start end_ : Nat)
    (fmt : Option (Nat → String)) (dest : Option FILE)
    (hs : start < 2 ^ 32) (he : end_ < 2 ^ 32) (hf : end_ ≤ fuel) :
    (∃ t, print_sequence UINT_MAX start end_ fmt dest = some t) ∧
    ∃ t, print_sequence fuel start end_ fmt dest = some t ∧
      (∀ s ∈ t.calls, s.index + 1 < 2 ^ 32 ∧ (fib_advance s).index = s.index + 1) ∧
      (start < end_ → ∃ m1 m2,
        seek_loop fuel start { fib := fib_init, trace := { out := [], calls := [] } } = some m1 ∧
        m1.fib.index = start ∧
        emit_loop fuel end_ (fmt.getD default_fmt) (dest.getD FILE.stdout) m1 = some m2 ∧
        m2.fib.index = end_ ∧ t = m2.trace) := by
  have he2 : end_ < UINT_MOD := by simpa [UINT_MOD] using he
  have hs2 : start < UINT_MOD := by simpa [UINT_MOD] using hs
  by_cases hlt : start < end_
  · refine ⟨⟨_, print_sequence_eq UINT_MAX start end_ fmt dest hlt he2
      (by simp only [UINT_MAX]; omega)⟩, ?_⟩
    refine ⟨_, print_sequence_eq fuel start end_ fmt dest hlt he2 hf, ?_, ?_⟩
    · intro s hmem
      obtain ⟨i, hi, rfl⟩ := List.mem_map.mp hmem
      have hi2 : i < end_ := by simpa [List.mem_range'_1] using hi
      have hidx : (fib_at i).index = i := fib_at_index (by omega)
      have hstep : i + 1 < 2 ^ 32 := by omega
      refine ⟨by rw [hidx]; exact hstep, ?_⟩
      rw [fib_advance_fib_at, hidx]
      exact fib_at_index (by simp only [UINT_MOD]; omega)
    · intro _
      have h0 : fib_init = fib_at 0 := by simp [fib_init, fib_at, UINT_MOD]
      have hk : end_ - start = (end_ - start - 1) + 1 := by omega
      have hseek := seek_loop_spec start hs2 start 0 fuel { out := [], calls := [] }
        (by omega) (by omega)
      rw [← h0] at hseek
      refine ⟨_, _, hseek, fib_at_index hs2,
        emit_loop_spec end_ he2 _ _ (end_ - start - 1) start fuel _ (by omega) (by omega),
        fib_at_index he2, ?_⟩
      · simp only [List.nil_append, Trace.mk.injEq, ← hk, true_and]
        rw [← List.map_append]
        congr 1
        have := List.range'_append 0 start (end_ - start) 1
        simp only [Nat.one_mul, Nat.zero_add] at this
        rw [this]
        congr 1
        omega
  · have hle : end_ ≤ start := by omega
    have hret : ∀ f : Nat, print_sequence f start end_ fmt dest =
        some { out := [], calls := [] } := by
      intro f; simp [print_sequence, hle]
    refine ⟨⟨_, hret _⟩, _, hret _, ?_, ?_⟩
    · intro s hmem; simp at hmem
    · intro h; exact absurd h hlt

theorem print_sequence_terminates_witness :
    ∃ t, print_sequence UINT_MAX 5 (2 ^ 32 - 1) none none = some t :=
  (print_sequence_terminates (2 ^ 32 - 1) 5 (2 ^ 32 - 1) none none
    (by norm_num) (by norm_num) (le_refl _)).1

/-- C10: for `start < mid < end` (32 bit), what `print_sequence(start, end)`
writes is what `print_sequence(start, mid)` writes followed by what
`print_sequence(mid, end)` writes; the value written for index `i` is
`F(i) mod 2^32` wherever the seek began. -/
theorem print_sequence_split (fuel start mid end_ : Nat)
    (fmt : Option (Nat → String)) (dest : Option FILE)
    (h1 : start < mid) (h2 : mid < end_) (he : end_ < 2 ^ 32) (hf : end_ ≤ fuel) :
    ∃ t t1 t2, print_sequence fuel start end_ fmt dest = some t ∧
      print_sequence fuel start mid fmt dest = some t1 ∧
      print_sequence fuel mid end_ fmt dest = some t2 ∧
      t.out = t1.out ++ t2.out ∧
      t.out.map Write.arg = t1.out.map Write.arg ++ t2.out.map Write.arg ∧
      t.out.map Write.arg =
        (List.range' start (end_ - start)).map (fun i => Nat.fib i % 2 ^ 32) := by
  have he2 : end_ < UINT_MOD := by simpa [UINT_MOD] using he
  have hsplit : (List.range' start (end_ - start)).map
        (fib_write (fmt.getD default_fmt) (dest.getD FILE.stdout)) =
      (List.range' start (mid - start)).map
        (fib_write (fmt.getD default_fmt) (dest.getD FILE.stdout)) ++
      (List.range' mid (end_ - mid)).map
        (fib_write (fmt.getD default_fmt) (dest.getD FILE.stdout)) := by
    rw [← List.map_append]
    congr 1
    have := List.range'_append start (mid - start) (end_ - mid) 1
    simp only [Nat.one_mul] at this
    rw [show start + (mid - start) = mid by omega] at this
    rw [this]
    congr 1
    omega
  refine ⟨_, _, _, print_sequence_eq fuel start end_ fmt dest (by omega) he2 hf,
    print_sequence_eq fuel start mid fmt dest h1 (by omega) (by omega),
    print_sequence_eq fuel mid end_ fmt dest h2 he2 hf, hsplit, ?_, ?_⟩
  · simp only [hsplit, List.map_append]
  · simp [fib_write, UINT_MOD, Function.comp_def]

theorem print_sequence_split_witness :
    ∃ t t1 t2, print_sequence 60 3 50 none none = some t ∧
      print_sequence 60 3 7 none none = some t1 ∧
      print_sequence 60 7 50 none none = some t2 ∧
      t.out = t1.out ++ t2.out ∧
      t.out.map Write.arg = t1.out.map Write.arg ++ t2.out.map Write.arg ∧
      t.out.map Write.arg =
        (List.range' 3 (50 - 3)).map (fun i => Nat.fib i % 2 ^ 32) :=
  print_sequence_split 60 3 7 50 none none (by decide) (by decide) (by norm_num) (by decide)

/-! ## Lemmas on argument conversion and the option loop -/

theorem to_unsigned_of_nonneg {v : Int} (h0 : 0 ≤ v) (h1 : v < 2 ^ 32) :
    (to_unsigned v : Int) = v := by
  have hm : v % ((UINT_MOD : Nat) : Int) = v := by
    apply Int.emod_eq_of_lt h0
    simpa [UINT_MOD] using h1
  simp only [to_unsigned, hm]
  exact Int.toNat_of_nonneg h0

theorem str_to_index_error {env : Env} {src : String} {lower upper : Int} {arg : Char}
    {x : Exit} (h : str_to_index env src lower upper arg = Except.error x) :
    x.code = 1 ∧ ∃ t, x.log = [Event.fprintf FILE.stderr t] := by
  unfold str_to_index at h
  split at h
  · cases h; exact ⟨rfl, _, rfl⟩
  · split at h
    · cases h; exact ⟨rfl, _, rfl⟩
    · cases h

theorem str_to_index_ok {env : Env} {src : String} {arg : Char} {v : Nat}
    (h : str_to_index env src 0 48 arg = Except.ok v) : v ≤ 48 := by
  unfold str_to_index at h
  split at h
  · cases h
  · rename_i temp _
    split at h
    · cases h
    · rename_i hb
      cases h
      have h0 : (0 : Int) ≤ temp := by omega
      have hz := to_unsigned_of_nonneg h0 (by omega)
      omega

theorem last_opened_append_fopen (log : List Event) (path : String) (f : FILE) :
    last_opened (log ++ [Event.fopen path (some f)]) = some f := by
  simp [last_opened, List.foldl_append]

theorem last_opened_append_other (l1 l2 : List Event)
    (h : ∀ ev ∈ l2, ∀ path f, ev ≠ Event.fopen path (some f)) :
    last_opened (l1 ++ l2) = last_opened l1 := by
  induction l2 generalizing l1 with
  | nil => simp
  | cons ev rest ih =>
    have hrest : ∀ e ∈ rest, ∀ path f, e ≠ Event.fopen path (some f) :=
      fun e he => h e (List.mem_cons_of_mem _ he)
    have hev := h ev (List.mem_cons_self _ _)
    rw [show l1 ++ ev :: rest = (l1 ++ [ev]) ++ rest by simp, ih _ hrest]
    simp only [last_opened, List.foldl_append, List.foldl_cons, List.foldl_nil]

theorem quiet_append {l1 l2 : List Event} (h1 : ∀ ev ∈ l1, ev.is_quiet = true)
    (h2 : ∀ ev ∈ l2, ev.is_quiet = true) : ∀ ev ∈ l1 ++ l2, ev.is_quiet = true := by
  intro ev hev
  rcases List.mem_append.mp hev with h | h
  · exact h1 ev h
  · exact h2 ev h

theorem main_init_ok : main_init.ok := by
  refine ⟨?_, ?_, ?_, ?_, ?_⟩ <;> simp [main_init, last_opened]

/-- The switch keeps the invariant of the locals when the loop goes on. -/
theorem main_switch_ok {env : Env} {st st1 : Locals} {g : GetoptRet}
    (h : main_switch env st g = Except.ok st1) (hst : st.ok) : st1.ok := by
  obtain ⟨hq, ho, hn, hs, he⟩ := hst
  unfold main_switch at h
  by_cases h1 : g.c = 'e'
  · rw [if_pos h1] at h
    cases hv : str_to_index env g.optarg 0 48 g.c with
    | error y => rw [hv] at h; cases h
    | ok v =>
      rw [hv] at h
      cases h
      exact ⟨hq, ho, hn, hs, str_to_index_ok hv⟩
  rw [if_neg h1] at h
  by_cases h2 : g.c = 'h'
  · rw [if_pos h2] at h; cases h
  rw [if_neg h2] at h
  by_cases h3 : g.c = 'o'
  · rw [if_pos h3] at h
    by_cases h4 : env.fopen_ok g.optarg = true
    · rw [if_pos h4] at h
      cases h
      exact ⟨quiet_append hq (by simp [Event.is_quiet]), by simp [last_opened_append_fopen],
        by simp [last_opened_append_fopen], hs, he⟩
    · rw [if_neg h4] at h; cases h
  rw [if_neg h3] at h
  by_cases h5 : g.c = 's'
  · rw [if_pos h5] at h
    cases hv : str_to_index env g.optarg 0 48 g.c with
    | error y => rw [hv] at h; cases h
    | ok v =>
      rw [hv] at h
      cases h
      exact ⟨hq, ho, hn, str_to_index_ok hv, he⟩
  rw [if_neg h5] at h
  by_cases h6 : g.c = 'v'
  · rw [if_pos h6] at h; cases h
  rw [if_neg h6] at h
  by_cases h7 : g.c = ':'
  · rw [if_pos h7] at h; cases h
  rw [if_neg h7] at h
  by_cases h8 : g.c = '?'
  · rw [if_pos h8] at h; cases h
  rw [if_neg h8] at h
  cases h
  exact ⟨hq, ho, hn, hs, he⟩

/-- When the switch ends the process, nothing but opening files and writing to
the error stream has happened, and the exit code is 1 unless the option was
`-h` or `-v`. -/
theorem main_switch_error {env : Env} {st : Locals} {g : GetoptRet} {x : Exit}
    (h : main_switch env st g = Except.error x) (hst : st.ok) :
    (∀ ev ∈ x.log, ev.is_quiet = true) ∧ (g.c ≠ 'h' → g.c ≠ 'v' → x.code = 1) := by
  obtain ⟨hq, -, -, -, -⟩ := hst
  unfold main_switch at h
  by_cases h1 : g.c = 'e'
  · rw [if_pos h1] at h
    cases hv : str_to_index env g.optarg 0 48 g.c with
    | error y =>
      rw [hv] at h
      cases h
      obtain ⟨hc, t, ht⟩ := str_to_index_error hv
      exact ⟨quiet_append hq (by simp [ht, Event.is_quiet]), fun _ _ => hc⟩
    | ok v => rw [hv] at h; cases h
  rw [if_neg h1] at h
  by_cases h2 : g.c = 'h'
  · rw [if_pos h2] at h
    cases h
    exact ⟨quiet_append hq (by simp [usage, Event.is_quiet]), fun hh _ => absurd h2 hh⟩
  rw [if_neg h2] at h
  by_cases h3 : g.c = 'o'
  · rw [if_pos h3] at h
    by_cases h4 : env.fopen_ok g.optarg = true
    · rw [if_pos h4] at h; cases h
    · rw [if_neg h4] at h
      cases h
      exact ⟨quiet_append hq (by simp [Event.is_quiet]), fun _ _ => rfl⟩
  rw [if_neg h3] at h
  by_cases h5 : g.c = 's'
  · rw [if_pos h5] at h
    cases hv : str_to_index env g.optarg 0 48 g.c with
    | error y =>
      rw [hv] at h
      cases h
      obtain ⟨hc, t, ht⟩ := str_to_index_error hv
      exact ⟨quiet_append hq (by simp [ht, Event.is_quiet]), fun _ _ => hc⟩
    | ok v => rw [hv] at h; cases h
  rw [if_neg h5] at h
  by_cases h6 : g.c = 'v'
  · rw [if_pos h6] at h
    cases h
    exact ⟨quiet_append hq (by simp [Event.is_quiet]), fun _ hv => absurd h6 hv⟩
  rw [if_neg h6] at h
  by_cases h7 : g.c = ':'
  · rw [if_pos h7] at h
    cases h
    exact ⟨quiet_append (quiet_append hq (by simp [Event.is_quiet]))
      (by simp [usage, Event.is_quiet]), fun _ _ => rfl⟩
  rw [if_neg h7] at h
  by_cases h8 : g.c = '?'
  · rw [if_pos h8] at h
    cases h
    exact ⟨quiet_append hq (by simp [usage, Event.is_quiet]), fun _ _ => rfl⟩
  rw [if_neg h8] at h
  cases h

theorem main_loop_ok {env : Env} : ∀ (gs : List GetoptRet) {st st1 : Locals},
    main_loop env gs st = Except.ok st1 → st.ok → st1.ok := by
  intro gs
  induction gs with
  | nil => intro st st1 h hst; simp only [main_loop] at h; cases h; exact hst
  | cons g rest ih =>
    intro st st1 h hst
    simp only [main_loop] at h
    cases hsw : main_switch env st g with
    | error y => rw [hsw] at h; cases h
    | ok st2 => rw [hsw] at h; exact ih h (main_switch_ok hsw hst)

theorem main_loop_error {env : Env} : ∀ (gs : List GetoptRet) {st : Locals} {x : Exit},
    main_loop env gs st = Except.error x → st.ok → ∀ ev ∈ x.log, ev.is_quiet = true := by
  intro gs
  induction gs with
  | nil => intro st x h hst; simp only [main_loop] at h; cases h
  | cons g rest ih =>
    intro st x h hst
    simp only [main_loop] at h
    cases hsw : main_switch env st g with
    | error y => rw [hsw] at h; cases h; exact (main_switch_error hsw hst).1
    | ok st2 => rw [hsw] at h; exact ih h (main_switch_ok hsw hst)

/-- The printer always returns when `main` calls it. -/
theorem main_finish_eq {st : Locals} (hst : st.ok) :
    ∃ t, print_sequence UINT_MAX st.start st.end_ none (some st.outfile) = some t ∧
      (∀ w ∈ t.out, w.dest = st.outfile) ∧
      main_finish st = some
        { code := 0,
          log := st.log ++ [Event.print_sequence st.start st.end_]
            ++ t.out.map (fun w => Event.fprintf w.dest w.text)
            ++ (if st.outfile ≠ FILE.stdout then [Event.fclose st.outfile] else []) } := by
  obtain ⟨-, -, -, hs, he⟩ := hst
  have hret : ∃ t, print_sequence UINT_MAX st.start st.end_ none (some st.outfile) = some t ∧
      ∀ w ∈ t.out, w.dest = st.outfile := by
    by_cases hlt : st.start < st.end_
    · refine ⟨_, print_sequence_eq UINT_MAX st.start st.end_ none (some st.outfile) hlt
        (by simp only [UINT_MOD]; omega) (by simp only [UINT_MAX]; omega), ?_⟩
      intro w hw
      obtain ⟨j, _, rfl⟩ := List.mem_map.mp hw
      rfl
    · refine ⟨{ out := [], calls := [] }, by simp [print_sequence, Nat.le_of_not_lt hlt], ?_⟩
      intro w hw
      simp at hw
  obtain ⟨t, ht, hdest⟩ := hret
  refine ⟨t, ht, hdest, ?_⟩
  simp only [main_finish, ht]

/-! ## Argument conversion -/

/-- C6, as stated, fails: with `-o out.txt -v` the file is opened and the
process ends with code 0 at the `return 0` of the `-v` case, and with
`-o out.txt -s abc` it ends with code 1 at the `exit(1)` of `str_to_index`;
in both runs no `fclose` is performed. -/
theorem main_early_exit_leaves_file_open :
    main demo_env ["c-style", "-o", "out.txt", "-v"] =
      some { code := 0,
             log := [Event.fopen "out.txt" (some (FILE.file 0 "out.txt")),
                     Event.fprintf FILE.stderr "c-style v20170512\n"] } ∧
    Event.fclose (FILE.file 0 "out.txt") ∉
      [Event.fopen "out.txt" (some (FILE.file 0 "out.txt")),
       Event.fprintf FILE.stderr "c-style v20170512\n"] ∧
    main demo_env ["c-style", "-o", "out.txt", "-s", "abc"] =
      some { code := 1,
             log := [Event.fopen "out.txt" (some (FILE.file 0 "out.txt")),
                     Event.fprintf FILE.stderr "Argument to -s must be a number\n"] } ∧
    Event.fclose (FILE.file 0 "out.txt") ∉
      [Event.fopen "out.txt" (some (FILE.file 0 "out.txt")),
       Event.fprintf FILE.stderr "Argument to -s must be a number\n"] := by
  refine ⟨by decide, by decide, by decide, by decide⟩

/-- C6, amended: `main` always terminates and never closes standard output;
on the exit path that calls `print_sequence` (no option ended the process
before) it returns 0 and, when a file was opened by `-o`, the file opened last
is closed by the last action of the run, after all printing, and nothing else
is closed. -/
theorem main_closes_outfile (env : Env) (argv : List String) :
    ∃ x, main env argv = some x ∧
      Event.fclose FILE.stdout ∉ x.log ∧
      ((∃ a b, Event.print_sequence a b ∈ x.log) → x.code = 0 ∧
        ∀ f, last_opened x.log = some f →
          ∃ pre, x.log = pre ++ [Event.fclose f] ∧ ∀ g, Event.fclose g ∉ pre) := by
  unfold main
  cases hloop : main_loop env (getopt_all OPTSTRING false argv.tail) main_init with
  | error y =>
    have hquiet := main_loop_error _ hloop main_init_ok
    refine ⟨y, rfl, ?_, ?_⟩
    · intro hmem
      have := hquiet _ hmem
      simp [Event.is_quiet] at this
    · rintro ⟨a, b, hmem⟩
      have := hquiet _ hmem
      simp [Event.is_quiet] at this
  | ok st =>
    have hst := main_loop_ok _ hloop main_init_ok
    obtain ⟨t, -, hdest, hfin⟩ := main_finish_eq hst
    obtain ⟨hq, ho, hn, -, -⟩ := hst
    have hpre : ∀ g, Event.fclose g ∉
        st.log ++ [Event.print_sequence st.start st.end_]
          ++ t.out.map (fun w => Event.fprintf w.dest w.text) := by
      intro g hmem
      simp only [List.mem_append, List.mem_singleton, List.mem_map] at hmem
      rcases hmem with (hmem | hmem) | ⟨w, _, hw⟩
      · have := hq _ hmem
        simp [Event.is_quiet] at this
      · cases hmem
      · cases hw
    refine ⟨_, hfin, ?_, ?_⟩
    · intro hmem
      rcases List.mem_append.mp hmem with hmem | hmem
      · exact hpre _ hmem
      · by_cases hstd : st.outfile = FILE.stdout
        · simp [hstd] at hmem
        · simp only [ne_eq, hstd, not_false_eq_true, if_true, List.mem_singleton,
            Event.fclose.injEq] at hmem
          exact hstd hmem.symm
    · intro _
      refine ⟨rfl, ?_⟩
      intro f hf
      have hother : ∀ ev ∈ [Event.print_sequence st.start st.end_]
            ++ t.out.map (fun w => Event.fprintf w.dest w.text)
            ++ (if st.outfile ≠ FILE.stdout then [Event.fclose st.outfile] else []),
          ∀ path h, ev ≠ Event.fopen path (some h) := by
        intro ev hev path h heq
        subst heq
        simp only [List.mem_append, List.mem_singleton, List.mem_map] at hev
        rcases hev with (hev | ⟨w, _, hw⟩) | hev
        · cases hev
        · cases hw
        · split at hev
          · simp at hev
          · simp at hev
      simp only [List.append_assoc] at hf
      rw [last_opened_append_other] at hf
      · rw [hf] at ho hn
        simp only [Option.getD_some] at ho
        have hne : st.outfile ≠ FILE.stdout := by
          rw [ho]
          intro h
          exact hn (by rw [h])
        rw [ho] at hne
        refine ⟨_, ?_, hpre⟩
        show _ ++ (if st.outfile ≠ FILE.stdout then [Event.fclose st.outfile] else []) = _
        rw [ho, if_pos hne]
      · simpa [List.append_assoc] using hother

theorem main_closes_outfile_witness :
    ∃ x, main demo_env ["c-style", "-o", "a.txt", "-e", "3"] = some x ∧
      Event.fclose FILE.stdout ∉ x.log ∧
      ((∃ a b, Event.print_sequence a b ∈ x.log) → x.code = 0 ∧
        ∀ f, last_opened x.log = some f →
          ∃ pre, x.log = pre ++ [Event.fclose f] ∧ ∀ g, Event.fclose g ∉ pre) :=
  main_closes_outfile demo_env ["c-style", "-o", "a.txt", "-e", "3"]

end Style
